import Mathlib

/-
Verification of the MDSA SNN result-readout core (snnalgos):
a shallow embedding of `apply_results_to_graphs.py` and
`create_MDSA_snn_recurrent_synapses.py`, together with proofs of the
specified properties of the majority-vote readout, the result validator,
the radiation-fault detector and the recurrent-synapse topology builder.

Python dicts are embedded as association lists `List (String × Int)`
(insertion-ordered, unique keys), Python exceptions as `Except` error
values, and neuron-current reads from the simulation backend as explicit
functions `Nat → Int` passed in by the caller (the backend is an external
collaborator).  Neuron names are the same strings the source builds with
f-strings, via `Nat.repr`.
-/

/-! ### Decimal-digit infrastructure for `Nat.repr`

The source uses f-string names (`counter_3`, `r_2_counter_3`,
`degree_receiver_1_2_0`); reasoning about suffix matching and name
identity needs that `Nat.repr` is injective and produces digit
characters only.  Core Lean does not provide these facts, so we prove
them from `Nat.toDigitsCore`. -/

/-- Most-significant-digit-first decimal digit characters of a natural
number, as a structurally transparent recursion (equal to what
`Nat.toDigits 10` produces). -/
def natDigits (n : Nat) : List Char :=
  if h : n < 10 then [Nat.digitChar n]
  else
    have : n / 10 < n := Nat.div_lt_self (by omega) (by omega)
    natDigits (n / 10) ++ [Nat.digitChar (n % 10)]

theorem natDigits_of_lt {n : Nat} (h : n < 10) :
    natDigits n = [Nat.digitChar n] := by
  rw [natDigits]
  simp [h]

theorem natDigits_of_ge {n : Nat} (h : ¬ n < 10) :
    natDigits n = natDigits (n / 10) ++ [Nat.digitChar (n % 10)] := by
  rw [natDigits]
  simp [h]

theorem natDigits_ne_nil (n : Nat) : natDigits n ≠ [] := by
  by_cases h : n < 10
  · rw [natDigits_of_lt h]
    simp
  · rw [natDigits_of_ge h]
    simp

theorem toDigitsCore_eq_natDigits (f : Nat) :
    ∀ (n : Nat) (ds : List Char), n < 10 ^ f →
      Nat.toDigitsCore 10 (f + 1) n ds = natDigits n ++ ds := by
  induction f with
  | zero =>
    intro n ds h
    have hn : n = 0 := by simpa using h
    subst hn
    simp [Nat.toDigitsCore, natDigits_of_lt]
  | succ f ih =>
    intro n ds h
    show Nat.toDigitsCore 10 (f + 1 + 1) n ds = natDigits n ++ ds
    rw [Nat.toDigitsCore]
    by_cases h10 : n / 10 = 0
    · have hlt : n < 10 := by omega
      rw [if_pos h10, natDigits_of_lt hlt, Nat.mod_eq_of_lt hlt]
      simp
    · have hge : ¬ n < 10 := by omega
      have hdiv : n / 10 < 10 ^ f := by
        rw [Nat.div_lt_iff_lt_mul (by omega : 0 < 10)]
        calc n < 10 ^ (f + 1) := h
        _ = 10 ^ f * 10 := by rw [pow_succ]
      rw [if_neg h10, ih (n / 10) _ hdiv, natDigits_of_ge hge]
      simp

theorem repr_eq_natDigits (n : Nat) : Nat.repr n = (natDigits n).asString := by
  show (Nat.toDigits 10 n).asString = (natDigits n).asString
  unfold Nat.toDigits
  rw [toDigitsCore_eq_natDigits n n [] (Nat.lt_pow_self (by omega) n)]
  simp

theorem digitChar_isDigit {m : Nat} (h : m < 10) :
    (Nat.digitChar m).isDigit = true := by
  interval_cases m <;> decide

theorem digitChar_toNat {m : Nat} (h : m < 10) :
    (Nat.digitChar m).toNat = m + 48 := by
  interval_cases m <;> decide

theorem natDigits_isDigit (n : Nat) : ∀ c ∈ natDigits n, c.isDigit = true := by
  induction n using Nat.strong_induction_on with
  | _ n ih =>
    by_cases h : n < 10
    · rw [natDigits_of_lt h]
      intro c hc
      rw [List.mem_singleton] at hc
      subst hc
      exact digitChar_isDigit h
    · rw [natDigits_of_ge h]
      intro c hc
      rcases List.mem_append.mp hc with hc | hc
      · exact ih (n / 10) (Nat.div_lt_self (by omega) (by omega)) c hc
      · rw [List.mem_singleton] at hc
        subst hc
        exact digitChar_isDigit (Nat.mod_lt _ (by omega))

/-- Value of a most-significant-first decimal digit list. -/
def digitsVal (l : List Char) : Nat :=
  l.foldl (fun a c => a * 10 + (c.toNat - 48)) 0

theorem digitsVal_go (n : Nat) :
    ∀ a : Nat, (natDigits n).foldl (fun a c => a * 10 + (c.toNat - 48)) a =
      a * 10 ^ (natDigits n).length + n := by
  induction n using Nat.strong_induction_on with
  | _ n ih =>
    intro a
    by_cases h : n < 10
    · rw [natDigits_of_lt h]
      simp [digitChar_toNat h]
    · rw [natDigits_of_ge h]
      rw [List.foldl_append]
      rw [ih (n / 10) (Nat.div_lt_self (by omega) (by omega)) a]
      have hm : n % 10 < 10 := Nat.mod_lt _ (by omega)
      simp only [List.foldl_cons, List.foldl_nil, digitChar_toNat hm,
        List.length_append, List.length_singleton]
      rw [pow_succ]
      have := Nat.div_add_mod n 10
      ring_nf
      omega

theorem digitsVal_natDigits (n : Nat) : digitsVal (natDigits n) = n := by
  unfold digitsVal
  rw [digitsVal_go n 0]
  simp

theorem natDigits_injective : Function.Injective natDigits := by
  intro a b h
  have := digitsVal_natDigits a
  rw [h, digitsVal_natDigits] at this
  omega

theorem repr_injective : Function.Injective Nat.repr := by
  intro a b h
  rw [repr_eq_natDigits, repr_eq_natDigits] at h
  apply natDigits_injective
  have : (natDigits a).asString.data = (natDigits b).asString.data := by rw [h]
  simpa [List.asString] using this

theorem repr_data_isDigit (n : Nat) :
    ∀ c ∈ (Nat.repr n).data, c.isDigit = true := by
  rw [repr_eq_natDigits]
  simpa [List.asString] using natDigits_isDigit n

theorem underscore_not_mem_repr (n : Nat) : '_' ∉ (Nat.repr n).data := by
  intro h
  have := repr_data_isDigit n '_' h
  simp at this

/-! ### Splitting names at underscores

The f-string names in the source separate numeric components with the
character '_', which never occurs in a decimal rendering; this makes the
name constructors injective and lets suffix matching be inverted. -/

theorem append_underscore_inj :
    ∀ (x y r s : List Char), '_' ∉ x → '_' ∉ y →
      x ++ '_' :: r = y ++ '_' :: s → x = y ∧ r = s := by
  intro x
  induction x with
  | nil =>
    intro y r s _ hy h
    cases y with
    | nil => simpa using h
    | cons c y' =>
      simp only [List.nil_append, List.cons_append, List.cons.injEq] at h
      exact absurd (by rw [← h.1]; exact List.mem_cons_self _ _) hy
  | cons c x' ih =>
    intro y r s hx hy h
    cases y with
    | nil =>
      simp only [List.cons_append, List.nil_append, List.cons.injEq] at h
      exact absurd (by rw [h.1]; exact List.mem_cons_self _ _) hx
    | cons d y' =>
      simp only [List.cons_append, List.cons.injEq] at h
      obtain ⟨hcd, h'⟩ := h
      have hx' : '_' ∉ x' := fun hm => hx (List.mem_cons_of_mem _ hm)
      have hy' : '_' ∉ y' := fun hm => hy (List.mem_cons_of_mem _ hm)
      obtain ⟨h1, h2⟩ := ih y' r s hx' hy' h'
      exact ⟨by rw [hcd, h1], h2⟩

theorem append_underscore_inj_right
    (x y r s : List Char) (hr : '_' ∉ r) (hs : '_' ∉ s)
    (h : x ++ '_' :: r = y ++ '_' :: s) : x = y ∧ r = s := by
  have hrev : r.reverse ++ '_' :: x.reverse = s.reverse ++ '_' :: y.reverse := by
    have := congrArg List.reverse h
    simpa [List.reverse_append] using this
  have hr' : '_' ∉ r.reverse := by simpa using hr
  have hs' : '_' ∉ s.reverse := by simpa using hs
  obtain ⟨h1, h2⟩ := append_underscore_inj _ _ _ _ hr' hs' hrev
  constructor
  · have := congrArg List.reverse h2
    simpa using this
  · have := congrArg List.reverse h1
    simpa using this

theorem counter_suffix_iff (i j : Nat) :
    ("counter_" ++ Nat.repr i).data <:+ ("counter_" ++ Nat.repr j).data ↔
      i = j := by
  constructor
  · rintro ⟨p, hp⟩
    rw [String.data_append, String.data_append] at hp
    have hc : ("counter_" : String).data = ("counter" : String).data ++ ['_'] := rfl
    rw [hc] at hp
    have hp' : (p ++ ("counter" : String).data) ++ '_' :: (Nat.repr i).data =
        ("counter" : String).data ++ '_' :: (Nat.repr j).data := by
      simpa [List.append_assoc] using hp
    obtain ⟨-, h2⟩ := append_underscore_inj_right _ _ _ _
      (underscore_not_mem_repr i) (underscore_not_mem_repr j) hp'
    exact repr_injective (String.ext h2)
  · rintro rfl
    exact List.suffix_refl _

theorem counter_name_inj {i j : Nat}
    (h : ("counter_" ++ Nat.repr i : String) = "counter_" ++ Nat.repr j) :
    i = j := by
  apply counter_suffix_iff i j |>.mp
  rw [h]

/-! ### Python primitives used by the source -/

/-- Python slice `s[-k:]`: the trailing `k` characters of `s` (all of
`s` when `k` exceeds its length). -/
def pySliceLast (s : String) (k : Nat) : String :=
  ⟨s.data.drop (s.data.length - k)⟩

/-- Python `sub in s` on strings: substring containment. -/
def pyIn (sub s : String) : Bool :=
  decide (sub.data <:+: s.data)

/-- One insertion step of `collections.Counter`: increment the count of
an existing key, or append a fresh key with count 1. -/
def counterInsert (acc : List (Int × Nat)) (v : Int) : List (Int × Nat) :=
  if acc.any (fun p => p.1 == v) then
    acc.map (fun p => if p.1 == v then (p.1, p.2 + 1) else p)
  else acc ++ [(v, 1)]

/-- Python `collections.Counter(votes)`: keys in first-occurrence
(insertion) order, each with its multiplicity. -/
def py_counter (votes : List Int) : List (Int × Nat) :=
  votes.foldl counterInsert []

/-- Insertion-ordered key list of `collections.Counter(votes)`. -/
def pyKeys (votes : List Int) : List Int :=
  votes.foldl (fun ks v => if ks.contains v then ks else ks ++ [v]) []

/-- One comparison step of a stable maximum-by-count scan. -/
def mctStep (best : Option (Int × Nat)) (p : Int × Nat) :
    Option (Int × Nat) :=
  match best with
  | none => some p
  | some q => if q.2 < p.2 then some p else some q

/-- Python `heapq.nlargest(n, items, key=count)[0]` for `n ≥ 1`, which
is what `Counter.most_common(n)[0]` computes: the first item with
maximal count (`nlargest` is stable, so a tie goes to the
earlier-inserted key).  Returns `none` on an empty list. -/
def most_common_top (counts : List (Int × Nat)) : Option (Int × Nat) :=
  counts.foldl mctStep none

/-- Python `dict.__eq__`: equal key sets and equal value per key. -/
def pyDictEq (a b : List (String × Int)) : Bool :=
  a.all (fun p => b.lookup p.1 == some p.2) &&
    b.all (fun p => a.lookup p.1 == some p.2)

/-- Python `a.keys() == b.keys()`: key-set equality of two dicts. -/
def pyKeysEq (a b : List (String × Int)) : Bool :=
  a.all (fun p => (b.lookup p.1).isSome) &&
    b.all (fun p => (a.lookup p.1).isSome)

/-! ### Embedding of `apply_results_to_graphs.py` -/

/-- Python exceptions raised on the readout path: the `ValueError` for
an invalid redundancy level in `get_nx_LIF_count_with_redundancy` (a
configuration error), the `ValueError` for more than two distinct vote
values in `get_majority_node_count` (a structural violation), and the
unstructured `IndexError` that `Counter.most_common(position)[0]`
raises when the indexed list is empty. -/
inductive SnnError where
  | configError : SnnError
  | structuralViolation : SnnError
  | indexError : SnnError
deriving DecidableEq

/-- Readout of all `counter_<i>` neurons (source:
`get_nx_LIF_count_without_redundancy`, `"nx"` simulator branch): one
entry per node of the input graph, reading the neuron's current at the
chosen timestep through the backend read function `u`. -/
def get_nx_LIF_count_without_redundancy (n : Nat) (u : Nat → Int) :
    List (String × Int) :=
  (List.range n).map (fun i => ("counter_" ++ Nat.repr i, u i))

/-- Readout of the replica counters `r_<k>_counter_<i>` for
`k ∈ [1, red_level]` (source: `add_redundant_counter_node_counts`); the
source inserts these fresh keys into the marks dict, which appends them
in `k` order.  `ru k i` is the backend read of `r_<k>_counter_<i>`. -/
def add_redundant_counter_node_counts (ru : Nat → Nat → Int)
    (node_index red_level : Nat) : List (String × Int) :=
  (List.range' 1 red_level).map
    (fun k => ("r_" ++ Nat.repr k ++ "_counter_" ++ Nat.repr node_index,
      ru k node_index))

/-- The name filter of `get_majority_node_count`: a reading named
`node_name` is kept when `f"counter_{node_index}"` occurs as a
substring of `node_name[-len(f"counter_{node_index}"):]` (the source
removes the entries for which this containment fails). -/
def counter_name_matches (node_index : Nat) (node_name : String) : Bool :=
  pyIn ("counter_" ++ Nat.repr node_index)
    (pySliceLast node_name ("counter_" ++ Nat.repr node_index).length)

/-- Source: `find_majority(votes, position)`, which returns
`Counter(votes).most_common(position)[0]`; `none` models the
`IndexError` raised when that indexing fails (empty vote list, or
`position = 0`). -/
def find_majority (votes : List Int) (position : Nat) : Option (Int × Nat) :=
  if position = 0 then none else most_common_top (py_counter votes)

/-- Source: `get_majority_node_count`.  Reads all counter neurons, keeps
those whose name matches `counter_<node_index>`, appends the replica
readings, optionally removes negative (inhibited-sentinel) values,
raises a `ValueError` when more than two distinct values remain, and
returns the most frequent remaining value.  `remove_negatives` defaults
to `True` in the source. -/
def get_majority_node_count (n : Nat) (u : Nat → Int) (ru : Nat → Nat → Int)
    (node_index red_level : Nat) (remove_negatives : Bool) :
    Except SnnError Int :=
  let marks1 := (get_nx_LIF_count_without_redundancy n u).filter
    (fun p => counter_name_matches node_index p.1)
  let marks2 := marks1 ++ add_redundant_counter_node_counts ru node_index red_level
  let marks3 :=
    if remove_negatives then marks2.filter (fun p => !(decide (p.2 < 0)))
    else marks2
  if 2 < (marks3.map Prod.snd).dedup.length then
    Except.error SnnError.structuralViolation
  else
    match find_majority (marks3.map Prod.snd) 1 with
    | some r => Except.ok r.1
    | none => Except.error SnnError.indexError

/-- Source: `get_nx_LIF_count_with_redundancy` (the default
majority-vote path): raises a `ValueError` — the configuration error —
when `red_level < 1` or `red_level % 2 == 1`, and otherwise computes
one majority count per node of the input graph. -/
def get_nx_LIF_count_with_redundancy (n : Nat) (u : Nat → Int)
    (ru : Nat → Nat → Int) (red_level : Int) :
    Except SnnError (List (String × Int)) :=
  if red_level < 1 ∨ red_level % 2 = 1 then Except.error SnnError.configError
  else
    (List.range n).foldlM
      (fun acc i => do
        let c ← get_majority_node_count n u ru i red_level.toNat true
        pure (acc ++ [("counter_" ++ Nat.repr i, c)]))
      []

/-- Source: `get_snn_results`: computes the counter marks (with or
without redundancy), then appends the `"passed"` entry, set to whether
the marks dict equals the reference `alipour_counter_marks` dict.  The
returned pair is that result dict: the marks entries plus the
`"passed"` boolean. -/
def get_snn_results (alipour_counter_marks : List (String × Int))
    (redundant : Bool) (n : Nat) (u : Nat → Int) (ru : Nat → Nat → Int)
    (red_level : Int) : Except SnnError (List (String × Int) × Bool) := do
  let marks ←
    if redundant then get_nx_LIF_count_with_redundancy n u ru red_level
    else pure (get_nx_LIF_count_without_redundancy n u)
  pure (marks, pyDictEq alipour_counter_marks marks)

/-- Python exceptions raised by `assert_valid_results`: the `KeyError`
naming both key sets, the `ValueError` naming the offending node, and
the `ValueError` for an inconsistent `passed` flag. -/
inductive ValidationError where
  | keyMismatch : List String → List String → ValidationError
  | valueMismatch : String → ValidationError
  | passedInconsistency : ValidationError
deriving DecidableEq

/-- Source: `assert_valid_results`.  `actual` is the result dict with
its `"passed"` entry already split off into `passed` (the source pops
that key first).  The key sets must match, each expected per-key value
must match (checked in the iteration order of `expected`), and
`passed` must be true. -/
def assert_valid_results (actual : List (String × Int)) (passed : Bool)
    (expected : List (String × Int)) : Except ValidationError Unit :=
  if !(pyKeysEq actual expected) then
    Except.error (ValidationError.keyMismatch (actual.map Prod.fst)
      (expected.map Prod.fst))
  else
    match expected.find? (fun p => !(actual.lookup p.1 == some p.2)) with
    | some p => Except.error (ValidationError.valueMismatch p.1)
    | none =>
      if passed then Except.ok ()
      else Except.error ValidationError.passedInconsistency

/-- Python `KeyError` raised by the fault detector (the `rad_death`
attribute set on some but not all nodes, or a failed node/attribute
lookup). -/
inductive RadError where
  | keyError : RadError
deriving DecidableEq

/-- Source: `graph_has_dead_neurons`.  The graph is embedded as its
node list, each node carrying its optional `rad_death` attribute. -/
def graph_has_dead_neurons (snn_graph : List (String × Option Bool)) :
    Except RadError Bool :=
  if snn_graph.any (fun p => p.2.isSome) then
    if snn_graph.all (fun p => p.2.isSome) then Except.ok true
    else Except.error RadError.keyError
  else Except.ok false

/-- Source: `counter_neuron_died`: reads the `rad_death` flag of the
named neuron when the fault model is active, and returns `False` when
no node of the graph carries the attribute. -/
def counter_neuron_died (snn_graph : List (String × Option Bool))
    (counter_neuron_name : String) : Except RadError Bool :=
  match graph_has_dead_neurons snn_graph with
  | Except.error e => Except.error e
  | Except.ok true =>
    match snn_graph.lookup counter_neuron_name with
    | some (some b) => Except.ok b
    | some none => Except.error RadError.keyError
    | none => Except.error RadError.keyError
  | Except.ok false => Except.ok false

/-! ### Embedding of `create_MDSA_snn_recurrent_synapses.py` -/

/-- Synapse attributes as constructed by the source
(`Synapse(weight=..., delay=..., change_per_t=...)`). -/
structure Synapse where
  weight : Int
  delay : Nat
  change_per_t : Int
deriving DecidableEq

/-- One directed edge with its synapse, as added by
`mdsa_snn.add_edges_from`. -/
structure RecurrentEdge where
  src : String
  tgt : String
  syn : Synapse
deriving DecidableEq

/-- Source name `f"degree_receiver_{i}_{j}_{m}"`. -/
def degree_receiver_name (i j m : Nat) : String :=
  "degree_receiver_" ++ Nat.repr i ++ "_" ++ Nat.repr j ++ "_" ++ Nat.repr m

/-- Source: `create_recurrent_degree_receiver_synapse`: one recurrent
self-loop per node `i`, neighbour `j` of `i` with `i != j`, and
`m ∈ [0, m_val]`, each with the configured recurrent weight, delay 0
and no decay.  The input graph is given by its node list and its
neighbour lists (`nx.all_neighbors`). -/
def create_recurrent_degree_receiver_synapse (nodes : List Nat)
    (neighbors : Nat → List Nat) (m_val : Nat) (recurrent_weight : Int) :
    List RecurrentEdge :=
  nodes.flatMap (fun i =>
    ((neighbors i).filter (fun j => !(i == j))).flatMap (fun j =>
      (List.range (m_val + 1)).map (fun m =>
        { src := degree_receiver_name i j m
          tgt := degree_receiver_name i j m
          syn := { weight := recurrent_weight, delay := 0, change_per_t := 0 } })))

/-- The readings of node `node_index`'s redundancy group at the readout
timestep: the primary `counter_<node_index>` current followed by the
replica currents of `r_1_counter_<node_index>` through
`r_<red_level>_counter_<node_index>`. -/
def redundancy_group_votes (u : Nat → Int) (ru : Nat → Nat → Int)
    (node_index red_level : Nat) : List Int :=
  u node_index :: (List.range' 1 red_level).map (fun k => ru k node_index)

/-! ### Properties of the `Counter` model -/

theorem pyKeys_append_singleton (l : List Int) (v : Int) :
    pyKeys (l ++ [v]) =
      if v ∈ pyKeys l then pyKeys l else pyKeys l ++ [v] := by
  unfold pyKeys
  rw [List.foldl_append]
  simp only [List.foldl_cons, List.foldl_nil]
  by_cases hv : v ∈ l.foldl (fun ks v => if ks.contains v then ks else ks ++ [v]) []
  · rw [if_pos (by simpa [List.elem_iff] using hv), if_pos hv]
  · rw [if_neg (by simpa [List.elem_iff] using hv), if_neg hv]

theorem mem_pyKeys (l : List Int) : ∀ v : Int, v ∈ pyKeys l ↔ v ∈ l := by
  induction l using List.reverseRecOn with
  | nil => intro v; simp [pyKeys]
  | append_singleton l w ih =>
    intro v
    rw [pyKeys_append_singleton]
    by_cases hw : w ∈ pyKeys l
    · rw [if_pos hw]
      rw [List.mem_append]
      constructor
      · intro h
        exact Or.inl ((ih v).mp h)
      · rintro (h | h)
        · exact (ih v).mpr h
        · rw [List.mem_singleton] at h
          subst h
          exact hw
    · rw [if_neg hw]
      simp only [List.mem_append, List.mem_singleton, ih v]

theorem pyKeys_nodup (l : List Int) : (pyKeys l).Nodup := by
  induction l using List.reverseRecOn with
  | nil => simp [pyKeys]
  | append_singleton l w ih =>
    rw [pyKeys_append_singleton]
    by_cases hw : w ∈ pyKeys l
    · rwa [if_pos hw]
    · rw [if_neg hw]
      simp [List.nodup_append, ih, hw]

theorem pyKeys_pairwise (l : List Int) :
    (pyKeys l).Pairwise (fun a b => l.indexOf a < l.indexOf b) := by
  induction l using List.reverseRecOn with
  | nil => simp [pyKeys]
  | append_singleton l w ih =>
    rw [pyKeys_append_singleton]
    by_cases hw : w ∈ pyKeys l
    · rw [if_pos hw]
      refine ih.imp_of_mem ?_
      intro a b ha hb hab
      have ha' : a ∈ l := (mem_pyKeys l a).mp ha
      have hb' : b ∈ l := (mem_pyKeys l b).mp hb
      rwa [List.indexOf_append_of_mem ha', List.indexOf_append_of_mem hb']
    · rw [if_neg hw]
      have hw' : w ∉ l := fun h => hw ((mem_pyKeys l w).mpr h)
      rw [List.pairwise_append]
      refine ⟨?_, by simp, ?_⟩
      · refine ih.imp_of_mem ?_
        intro a b ha hb hab
        have ha' : a ∈ l := (mem_pyKeys l a).mp ha
        have hb' : b ∈ l := (mem_pyKeys l b).mp hb
        rwa [List.indexOf_append_of_mem ha', List.indexOf_append_of_mem hb']
      · intro a ha b hb
        rw [List.mem_singleton] at hb
        have ha' : a ∈ l := (mem_pyKeys l a).mp ha
        rw [hb, List.indexOf_append_of_mem ha',
          List.indexOf_append_of_not_mem hw']
        have h1 : List.indexOf a l < l.length := List.indexOf_lt_length.mpr ha'
        omega

theorem py_counter_eq (l : List Int) :
    py_counter l = (pyKeys l).map (fun v => (v, l.count v)) := by
  induction l using List.reverseRecOn with
  | nil => simp [py_counter, pyKeys]
  | append_singleton l w ih =>
    have hstep : py_counter (l ++ [w]) = counterInsert (py_counter l) w := by
      unfold py_counter
      rw [List.foldl_append, List.foldl_cons, List.foldl_nil]
    rw [hstep, ih, pyKeys_append_singleton]
    unfold counterInsert
    by_cases hw : w ∈ pyKeys l
    · rw [if_pos hw]
      have hany : ((pyKeys l).map (fun v => (v, l.count v))).any
          (fun p => p.1 == w) = true := by
        rw [List.any_eq_true]
        exact ⟨(w, l.count w), List.mem_map_of_mem _ hw, by simp⟩
      rw [if_pos hany, List.map_map]
      apply List.map_congr_left
      intro a _
      by_cases haw : a = w
      · subst haw
        simp [List.count_append]
      · have : (a == w) = false := by simpa using haw
        simp [Function.comp, this, List.count_append, List.count_singleton,
          haw]
    · rw [if_neg hw]
      have hany : ((pyKeys l).map (fun v => (v, l.count v))).any
          (fun p => p.1 == w) = false := by
        rw [List.any_eq_false]
        rintro ⟨a, c⟩ hmem
        rw [List.mem_map] at hmem
        obtain ⟨a', ha', heq⟩ := hmem
        cases heq
        intro hbeq
        rw [beq_iff_eq] at hbeq
        exact hw (hbeq ▸ ha')
      rw [if_neg (by simp [hany])]
      have hw' : w ∉ l := fun h => hw ((mem_pyKeys l w).mpr h)
      rw [List.map_append]
      congr 1
      · apply List.map_congr_left
        intro a ha
        have haw : a ≠ w := fun h => hw (h ▸ ha)
        simp [List.count_append, List.count_singleton, haw]
      · simp [List.count_append, List.count_eq_zero.mpr hw']

theorem mctStep_none (p : Int × Nat) : mctStep none p = some p := rfl

theorem mctStep_some (q p : Int × Nat) :
    mctStep (some q) p = if q.2 < p.2 then some p else some q := rfl

theorem most_common_top_go (l : List (Int × Nat)) :
    ∀ (q r : Int × Nat),
      l.foldl mctStep (some q) = some r →
      (r = q ∧ ∀ p ∈ l, p.2 ≤ q.2) ∨
        (∃ l1 l2, l = l1 ++ r :: l2 ∧ q.2 < r.2 ∧
          (∀ p ∈ l1, p.2 < r.2) ∧ (∀ p ∈ l2, p.2 ≤ r.2)) := by
  induction l with
  | nil =>
    intro q r h
    simp only [List.foldl_nil, Option.some.injEq] at h
    exact Or.inl ⟨h.symm, by simp⟩
  | cons p l ih =>
    intro q r h
    rw [List.foldl_cons, mctStep_some] at h
    by_cases hp : q.2 < p.2
    · rw [if_pos hp] at h
      rcases ih p r h with ⟨rfl, hle⟩ | ⟨l1, l2, rfl, hlt, h1, h2⟩
      · refine Or.inr ⟨[], l, rfl, hp, by simp, hle⟩
      · refine Or.inr ⟨p :: l1, l2, rfl, lt_trans hp hlt, ?_, h2⟩
        intro x hx
        rcases List.mem_cons.mp hx with rfl | hx
        · exact hlt
        · exact h1 x hx
    · rw [if_neg hp] at h
      rcases ih q r h with ⟨rfl, hle⟩ | ⟨l1, l2, rfl, hlt, h1, h2⟩
      · refine Or.inl ⟨rfl, ?_⟩
        intro x hx
        rcases List.mem_cons.mp hx with rfl | hx
        · omega
        · exact hle x hx
      · refine Or.inr ⟨p :: l1, l2, rfl, hlt, ?_, h2⟩
        intro x hx
        rcases List.mem_cons.mp hx with rfl | hx
        · omega
        · exact h1 x hx

theorem most_common_top_spec (l : List (Int × Nat)) (r : Int × Nat)
    (h : most_common_top l = some r) :
    ∃ l1 l2, l = l1 ++ r :: l2 ∧ (∀ p ∈ l1, p.2 < r.2) ∧
      ∀ p ∈ l, p.2 ≤ r.2 := by
  cases l with
  | nil => simp [most_common_top] at h
  | cons p l =>
    unfold most_common_top at h
    rw [List.foldl_cons, mctStep_none] at h
    rcases most_common_top_go l p r h with ⟨rfl, hle⟩ | ⟨l1, l2, rfl, hlt, h1, h2⟩
    · refine ⟨[], l, rfl, by simp, ?_⟩
      intro x hx
      rcases List.mem_cons.mp hx with rfl | hx
      · exact le_refl _
      · exact hle x hx
    · refine ⟨p :: l1, l2, rfl, ?_, ?_⟩
      · intro x hx
        rcases List.mem_cons.mp hx with rfl | hx
        · exact hlt
        · exact h1 x hx
      · intro x hx
        rcases List.mem_cons.mp hx with rfl | hx
        · exact le_of_lt hlt
        · rcases List.mem_append.mp hx with hx | hx
          · exact le_of_lt (h1 x hx)
          · rcases List.mem_cons.mp hx with rfl | hx
            · exact le_refl _
            · exact h2 x hx

theorem foldl_mctStep_isSome (l : List (Int × Nat)) :
    ∀ q : Int × Nat, (l.foldl mctStep (some q)).isSome = true := by
  induction l with
  | nil => intro q; rfl
  | cons p l ih =>
    intro q
    rw [List.foldl_cons, mctStep_some]
    by_cases hp : q.2 < p.2
    · rw [if_pos hp]
      exact ih p
    · rw [if_neg hp]
      exact ih q

theorem most_common_top_isSome (l : List (Int × Nat)) (h : l ≠ []) :
    (most_common_top l).isSome = true := by
  cases l with
  | nil => exact absurd rfl h
  | cons p l =>
    unfold most_common_top
    rw [List.foldl_cons, mctStep_none]
    exact foldl_mctStep_isSome l p

theorem pyKeys_ne_nil (votes : List Int) (h : votes ≠ []) :
    pyKeys votes ≠ [] := by
  cases votes with
  | nil => exact absurd rfl h
  | cons v votes =>
    intro hnil
    have : v ∈ pyKeys (v :: votes) :=
      (mem_pyKeys _ v).mpr (List.mem_cons_self _ _)
    rw [hnil] at this
    exact absurd this (List.not_mem_nil _)

/-- C2: `find_majority` applied to a non-empty vote list with
`position = 1` returns the value occurring most often together with its
occurrence count, and a tie between maximal counts is broken in favour
of the value whose first occurrence comes earlier in the input sequence
(first-occurrence order, not numeric order). -/
theorem find_majority_stable_mode (votes : List Int) (h : votes ≠ []) :
    ∃ v c, find_majority votes 1 = some (v, c) ∧
      v ∈ votes ∧ c = votes.count v ∧
      (∀ w ∈ votes, votes.count w ≤ c) ∧
      (∀ w ∈ votes, votes.count w = c →
        votes.indexOf v ≤ votes.indexOf w) := by
  have hkeys : pyKeys votes ≠ [] := pyKeys_ne_nil votes h
  have hmap : py_counter votes ≠ [] := by
    rw [py_counter_eq]
    simpa using hkeys
  obtain ⟨r, hr⟩ :=
    Option.isSome_iff_exists.mp (most_common_top_isSome _ hmap)
  obtain ⟨l1, l2, hdec, hlt, hle⟩ := most_common_top_spec _ r hr
  rw [py_counter_eq] at hdec
  obtain ⟨k1, k2, hk, hk1, hk2⟩ := List.map_eq_append_iff.mp hdec
  cases k2 with
  | nil => exact absurd hk2.symm (List.cons_ne_nil _ _)
  | cons u k2' =>
    rw [List.map_cons] at hk2
    obtain ⟨hu, hk2'⟩ := List.cons.injEq .. |>.mp hk2
    refine ⟨u, votes.count u, ?_, ?_, rfl, ?_, ?_⟩
    · rw [find_majority, if_neg (by omega), hr, ← hu]
    · exact (mem_pyKeys votes u).mp (hk ▸ List.mem_append_right k1
        (List.mem_cons_self _ _))
    · intro w hw
      have hwk : w ∈ pyKeys votes := (mem_pyKeys votes w).mpr hw
      have hthis : (w, votes.count w) ∈ (pyKeys votes).map
          (fun v => (v, votes.count v)) := List.mem_map_of_mem _ hwk
      rw [← py_counter_eq] at hthis
      have hmem := hle _ hthis
      rw [← hu] at hmem
      exact hmem
    · intro w hw hcnt
      have hwk : w ∈ pyKeys votes := (mem_pyKeys votes w).mpr hw
      rw [hk] at hwk
      rcases List.mem_append.mp hwk with hw1 | hw2
      · exfalso
        have : (w, votes.count w) ∈ l1 := by
          rw [← hk1]
          exact List.mem_map_of_mem _ hw1
        have := hlt _ this
        rw [← hu] at this
        simp only at this
        omega
      · rcases List.mem_cons.mp hw2 with rfl | hw2'
        · exact le_refl _
        · have hpw := pyKeys_pairwise votes
          rw [hk] at hpw
          have hpair := (List.pairwise_append.mp hpw).2.1
          have := (List.pairwise_cons.mp hpair).1 w hw2'
          exact le_of_lt this

/-! ### The name filter of the majority readout -/

theorem substring_window_iff (t d : List Char) :
    t <:+: d.drop (d.length - t.length) ↔ t <:+ d := by
  constructor
  · intro h
    have hwlen : (d.drop (d.length - t.length)).length =
        d.length - (d.length - t.length) := List.length_drop _ _
    have hle : t.length ≤ (d.drop (d.length - t.length)).length :=
      h.length_le
    obtain ⟨p, s, hps⟩ := h
    have hplen := congrArg List.length hps
    simp only [List.length_append] at hplen
    have hp0 : p = [] := List.length_eq_zero.mp (by omega)
    have hs0 : s = [] := List.length_eq_zero.mp (by omega)
    subst hp0; subst hs0
    simp only [List.nil_append, List.append_nil] at hps
    rw [hps]
    exact List.drop_suffix _ _
  · rintro ⟨p, hp⟩
    have hlen : d.length - t.length = p.length := by
      rw [← hp]
      simp only [List.length_append]
      omega
    rw [hlen, ← hp, List.drop_left]

theorem counter_name_matches_iff (i : Nat) (name : String) :
    counter_name_matches i name = true ↔
      ("counter_" ++ Nat.repr i).data <:+ name.data := by
  unfold counter_name_matches pyIn pySliceLast
  rw [decide_eq_true_iff]
  exact substring_window_iff _ _

theorem range_filter_eq_single (n i : Nat) (h : i < n) (p : Nat → Bool)
    (hp : ∀ j, p j = true ↔ j = i) : (List.range n).filter p = [i] := by
  induction n with
  | zero => omega
  | succ n ih =>
    rw [List.range_succ, List.filter_append]
    by_cases hin : i < n
    · rw [ih hin]
      have hn : p n = false := by
        rw [← Bool.not_eq_true, hp]
        omega
      simp [hn]
    · have hi : i = n := by omega
      subst hi
      have h0 : (List.range i).filter p = [] := by
        rw [List.filter_eq_nil_iff]
        intro a ha
        rw [List.mem_range] at ha
        simp only [hp]
        omega
      have hpi : p i = true := (hp i).mpr rfl
      rw [h0]
      simp [hpi]

theorem filter_counter_marks (n : Nat) (u : Nat → Int) (i : Nat)
    (h : i < n) :
    (get_nx_LIF_count_without_redundancy n u).filter
        (fun p => counter_name_matches i p.1) =
      [("counter_" ++ Nat.repr i, u i)] := by
  unfold get_nx_LIF_count_without_redundancy
  rw [List.filter_map]
  have hcong : (List.range n).filter
      ((fun p => counter_name_matches i p.1) ∘
        (fun j => ("counter_" ++ Nat.repr j, u j))) = [i] := by
    apply range_filter_eq_single n i h
    intro j
    constructor
    · intro hj
      exact ((counter_suffix_iff i j).mp
        ((counter_name_matches_iff i _).mp hj)).symm
    · rintro rfl
      exact (counter_name_matches_iff j _).mpr ((counter_suffix_iff j j).mpr rfl)
  rw [hcong]
  simp

theorem gmnc_marks_snd (n : Nat) (u : Nat → Int) (ru : Nat → Nat → Int)
    (i red : Nat) (h : i < n) :
    (((get_nx_LIF_count_without_redundancy n u).filter
        (fun p => counter_name_matches i p.1)) ++
      add_redundant_counter_node_counts ru i red).map Prod.snd =
      redundancy_group_votes u ru i red := by
  rw [filter_counter_marks n u i h]
  unfold add_redundant_counter_node_counts redundancy_group_votes
  simp [List.map_map, Function.comp]

theorem gmnc_run (n : Nat) (u : Nat → Int) (ru : Nat → Nat → Int)
    (i red : Nat) (h : i < n) :
    get_majority_node_count n u ru i red true =
      if 2 < ((redundancy_group_votes u ru i red).filter
          (fun x => !(decide (x < 0)))).dedup.length then
        Except.error SnnError.structuralViolation
      else
        match find_majority ((redundancy_group_votes u ru i red).filter
            (fun x => !(decide (x < 0)))) 1 with
        | some r => Except.ok r.1
        | none => Except.error SnnError.indexError := by
  unfold get_majority_node_count
  simp only [if_true]
  have hsnd : (((get_nx_LIF_count_without_redundancy n u).filter
      (fun p => counter_name_matches i p.1) ++
      add_redundant_counter_node_counts ru i red).filter
      (fun p => !(decide (p.2 < 0)))).map Prod.snd =
      (redundancy_group_votes u ru i red).filter
        (fun x => !(decide (x < 0))) := by
    rw [show (fun (p : String × Int) => !(decide (p.2 < 0))) =
        ((fun x : Int => !(decide (x < 0))) ∘ Prod.snd) from rfl]
    rw [← List.filter_map]
    rw [gmnc_marks_snd n u ru i red h]
  rw [hsnd]

theorem dedup_replicate_succ (k : Nat) (v : Int) :
    (List.replicate (k + 1) v).dedup = [v] := by
  induction k with
  | zero => simp
  | succ k ih =>
    rw [List.replicate_succ, List.dedup_cons_of_mem (by simp)]
    exact ih

theorem pyKeys_replicate (k : Nat) (v : Int) :
    pyKeys (List.replicate (k + 1) v) = [v] := by
  induction k with
  | zero => rfl
  | succ k ih =>
    rw [List.replicate_succ', pyKeys_append_singleton, ih,
      if_pos (List.mem_singleton_self v)]

theorem py_counter_replicate (k : Nat) (v : Int) :
    py_counter (List.replicate (k + 1) v) = [(v, k + 1)] := by
  rw [py_counter_eq, pyKeys_replicate]
  simp

theorem find_majority_replicate (k : Nat) (v : Int) :
    find_majority (List.replicate (k + 1) v) 1 = some (v, k + 1) := by
  rw [find_majority, if_neg (by omega), py_counter_replicate]
  rfl

/-- C1: for a redundancy group whose readings contain exactly one
distinct non-negative value `v` (every other primary/replica reading
being a negative sentinel), `get_majority_node_count` with
`remove_negatives` at its source default `True` returns `v`. -/
theorem get_majority_node_count_single_alive_value
    (n : Nat) (u : Nat → Int) (ru : Nat → Nat → Int) (i red : Nat)
    (v : Int) (hin : i < n) (hv : 0 ≤ v)
    (hall : ∀ x ∈ redundancy_group_votes u ru i red, x = v ∨ x < 0)
    (hmem : v ∈ redundancy_group_votes u ru i red) :
    get_majority_node_count n u ru i red true = Except.ok v := by
  rw [gmnc_run n u ru i red hin]
  set vts := (redundancy_group_votes u ru i red).filter
    (fun x => !(decide (x < 0))) with hvts
  have hvmem : v ∈ vts := by
    rw [hvts, List.mem_filter]
    refine ⟨hmem, ?_⟩
    simp only [Bool.not_eq_true', decide_eq_false_iff_not]
    omega
  have hall' : ∀ x ∈ vts, x = v := by
    intro x hx
    rw [hvts, List.mem_filter] at hx
    rcases hall x hx.1 with hxx | hxx
    · exact hxx
    · exfalso
      have := hx.2
      simp only [Bool.not_eq_true', decide_eq_false_iff_not] at this
      omega
  obtain ⟨k, hk⟩ : ∃ k, vts.length = k + 1 := by
    refine ⟨vts.length - 1, ?_⟩
    have : 0 < vts.length := List.length_pos.mpr (List.ne_nil_of_mem hvmem)
    omega
  have hrep : vts = List.replicate (k + 1) v :=
    List.eq_replicate_iff.mpr ⟨hk, hall'⟩
  rw [hrep, dedup_replicate_succ, find_majority_replicate]
  simp

theorem get_majority_node_count_single_alive_value_witness :
    get_majority_node_count 2 (fun _ => 7) (fun _ _ => -1) 0 2 true =
      Except.ok 7 :=
  get_majority_node_count_single_alive_value 2 (fun _ => 7) (fun _ _ => -1)
    0 2 7 (by omega) (by omega) (by decide) (by decide)

/-- C3: when the redundancy group's readings, after removal of the
negative sentinel values, still contain more than two distinct values,
`get_majority_node_count` raises the structural-violation error
instead of returning a count. -/
theorem get_majority_node_count_structural_violation
    (n : Nat) (u : Nat → Int) (ru : Nat → Nat → Int) (i red : Nat)
    (hin : i < n)
    (hdist : 2 < ((redundancy_group_votes u ru i red).filter
        (fun x => !(decide (x < 0)))).dedup.length) :
    get_majority_node_count n u ru i red true =
      Except.error SnnError.structuralViolation := by
  rw [gmnc_run n u ru i red hin, if_pos hdist]

theorem get_majority_node_count_structural_violation_witness :
    get_majority_node_count 1 (fun _ => 1) (fun k _ => k + 1) 0 2 true =
      Except.error SnnError.structuralViolation :=
  get_majority_node_count_structural_violation 1 (fun _ => 1)
    (fun k _ => k + 1) 0 2 (by omega) (by decide)

/-- C10: when every reading of the redundancy group (primary and all
replicas) is negative, the default readout path removes all values
before voting, and `find_majority` is applied to an empty list: the
result is the unstructured index error (the `IndexError` of
`most_common(1)[0]`), not the structural-violation or configuration
error, and no count is returned. -/
theorem get_majority_node_count_all_negative_index_error
    (n : Nat) (u : Nat → Int) (ru : Nat → Nat → Int) (i red : Nat)
    (hin : i < n)
    (hneg : ∀ x ∈ redundancy_group_votes u ru i red, x < 0) :
    get_majority_node_count n u ru i red true =
      Except.error SnnError.indexError := by
  rw [gmnc_run n u ru i red hin]
  have hnil : (redundancy_group_votes u ru i red).filter
      (fun x => !(decide (x < 0))) = [] := by
    rw [List.filter_eq_nil_iff]
    intro x hx
    simp only [Bool.not_eq_true', decide_eq_false_iff_not, Decidable.not_not]
    exact hneg x hx
  rw [hnil]
  rfl

theorem get_majority_node_count_all_negative_index_error_witness :
    get_majority_node_count 1 (fun _ => -5) (fun _ _ => -1) 0 2 true =
      Except.error SnnError.indexError :=
  get_majority_node_count_all_negative_index_error 1 (fun _ => -5)
    (fun _ _ => -1) 0 2 (by omega) (by decide)

/-- C7: the filter that selects which raw readings belong to counter
`node_index` keeps a reading exactly when the trailing characters of
its name equal `counter_<node_index>` (exact suffix equality); in
particular, for `node_index = 1` a reading named `counter_10` is
discarded while `counter_1` and `r_2_counter_1` are kept. -/
theorem counter_name_filter_exact_suffix :
    (∀ (i : Nat) (node_name : String),
      counter_name_matches i node_name = true ↔
        ("counter_" ++ Nat.repr i).data <:+ node_name.data) ∧
    counter_name_matches 1 "counter_10" = false ∧
    counter_name_matches 1 "counter_1" = true ∧
    counter_name_matches 1 "r_2_counter_1" = true :=
  ⟨counter_name_matches_iff, by decide, by decide, by decide⟩

theorem counter_name_filter_exact_suffix_witness :
    counter_name_matches 1 "counter_10" = false ∧
      counter_name_matches 1 "counter_1" = true :=
  ⟨counter_name_filter_exact_suffix.2.1,
    counter_name_filter_exact_suffix.2.2.1⟩

theorem find_majority_stable_mode_witness :
    (∃ v c, find_majority [(5 : Int), -1, 5, -1] 1 = some (v, c) ∧
      v ∈ [(5 : Int), -1, 5, -1] ∧
      c = [(5 : Int), -1, 5, -1].count v ∧
      (∀ w ∈ [(5 : Int), -1, 5, -1],
        [(5 : Int), -1, 5, -1].count w ≤ c) ∧
      (∀ w ∈ [(5 : Int), -1, 5, -1],
        [(5 : Int), -1, 5, -1].count w = c →
          [(5 : Int), -1, 5, -1].indexOf v ≤
            [(5 : Int), -1, 5, -1].indexOf w)) ∧
    find_majority [(5 : Int), -1, 5, -1] 1 = some (5, 2) :=
  ⟨find_majority_stable_mode _ (by decide), by decide⟩

/-! ### The redundancy-level configuration check -/

theorem gmnc_ne_configError (n : Nat) (u : Nat → Int)
    (ru : Nat → Nat → Int) (i red : Nat) (h : i < n) :
    get_majority_node_count n u ru i red true ≠
      Except.error SnnError.configError := by
  rw [gmnc_run n u ru i red h]
  split
  · exact fun hh => SnnError.noConfusion (Except.error.inj hh)
  · split
    · exact fun hh => Except.noConfusion hh
    · exact fun hh => SnnError.noConfusion (Except.error.inj hh)

theorem foldlM_counts_ne_configError (n : Nat) (u : Nat → Int)
    (ru : Nat → Nat → Int) (red_level : Int) :
    ∀ (l : List Nat) (acc : List (String × Int)), (∀ i ∈ l, i < n) →
      l.foldlM (fun acc i => do
        let c ← get_majority_node_count n u ru i red_level.toNat true
        pure (acc ++ [("counter_" ++ Nat.repr i, c)])) acc ≠
      Except.error SnnError.configError := by
  intro l
  induction l with
  | nil =>
    intro acc _ h
    exact Except.noConfusion h
  | cons i l ih =>
    intro acc hl h
    rw [List.foldlM_cons] at h
    cases hg : get_majority_node_count n u ru i red_level.toNat true with
    | error e =>
      rw [hg] at h
      have h' : (Except.error e : Except SnnError (List (String × Int))) =
          Except.error SnnError.configError := h
      rw [Except.error.inj h'] at hg
      exact gmnc_ne_configError n u ru i red_level.toNat
        (hl i (List.mem_cons_self _ _)) hg
    | ok c =>
      rw [hg] at h
      exact ih (acc ++ [("counter_" ++ Nat.repr i, c)])
        (fun j hj => hl j (List.mem_cons_of_mem _ hj)) h

/-- C4: `get_nx_LIF_count_with_redundancy` raises the configuration
error for exactly those redundancy levels that are less than 1 or odd,
and hence proceeds past the configuration check for every even
`red_level ≥ 2` (the enforced rule is even-and-at-least-2, despite the
inline source comment describing the rule as positive and odd). -/
theorem get_nx_LIF_count_with_redundancy_config_error_iff
    (n : Nat) (u : Nat → Int) (ru : Nat → Nat → Int) (red_level : Int) :
    get_nx_LIF_count_with_redundancy n u ru red_level =
        Except.error SnnError.configError ↔
      (red_level < 1 ∨ red_level % 2 = 1) := by
  unfold get_nx_LIF_count_with_redundancy
  by_cases hc : red_level < 1 ∨ red_level % 2 = 1
  · rw [if_pos hc]
    simp [hc]
  · rw [if_neg hc]
    constructor
    · intro h
      exact absurd h (foldlM_counts_ne_configError n u ru red_level _ _
        (fun i hi => List.mem_range.mp hi))
    · intro h
      exact absurd h hc

theorem get_nx_LIF_count_with_redundancy_config_error_iff_witness :
    (get_nx_LIF_count_with_redundancy 1 (fun _ => 0) (fun _ _ => 0) 3 =
      Except.error SnnError.configError) ∧
    ¬ (get_nx_LIF_count_with_redundancy 1 (fun _ => 0) (fun _ _ => 0) 2 =
      Except.error SnnError.configError) :=
  ⟨(get_nx_LIF_count_with_redundancy_config_error_iff 1 (fun _ => 0)
      (fun _ _ => 0) 3).mpr (by decide),
    fun h => by
      have := (get_nx_LIF_count_with_redundancy_config_error_iff 1
        (fun _ => 0) (fun _ _ => 0) 2).mp h
      revert this
      decide⟩

/-! ### The result validator -/

/-- Key-set equality of two embedded dicts (what `a.keys() == b.keys()`
tests). -/
abbrev dict_keys_eq (a b : List (String × Int)) : Prop :=
  (∀ p ∈ a, (b.lookup p.1).isSome = true) ∧
    ∀ p ∈ b, (a.lookup p.1).isSome = true

/-- Per-key value agreement: every entry of `expected` is matched
exactly by `actual`. -/
abbrev dict_vals_match (actual expected : List (String × Int)) : Prop :=
  ∀ p ∈ expected, actual.lookup p.1 = some p.2

theorem pyKeysEq_iff (a b : List (String × Int)) :
    pyKeysEq a b = true ↔ dict_keys_eq a b := by
  unfold pyKeysEq dict_keys_eq
  rw [Bool.and_eq_true, List.all_eq_true, List.all_eq_true]

theorem find_mismatch_none_iff (a e : List (String × Int)) :
    e.find? (fun p => !(a.lookup p.1 == some p.2)) = none ↔
      dict_vals_match a e := by
  rw [List.find?_eq_none]
  unfold dict_vals_match
  constructor
  · intro h p hp
    have := h p hp
    simpa using this
  · intro h p hp
    simpa using h p hp

theorem lookup_of_mem_nodup {β : Type} (l : List (String × β))
    (p : String × β) (hn : (l.map Prod.fst).Nodup) (hp : p ∈ l) :
    l.lookup p.1 = some p.2 := by
  induction l with
  | nil => exact absurd hp (List.not_mem_nil p)
  | cons q l ih =>
    obtain ⟨k, b⟩ := q
    rw [List.map_cons, List.nodup_cons] at hn
    rcases List.mem_cons.mp hp with rfl | hp'
    · simp
    · have hq : k ≠ p.1 := by
        intro hqp
        have hmem := List.mem_map_of_mem Prod.fst hp'
        rw [← hqp] at hmem
        exact hn.1 hmem
      have hbeq : (p.1 == k) = false := by
        simp only [beq_eq_false_iff_ne]
        exact fun hh => hq hh.symm
      have hstep : List.lookup p.1 ((k, b) :: l) = List.lookup p.1 l := by
        simp [List.lookup, hbeq]
      rw [hstep]
      exact ih hn.2 hp'

/-- C5: `assert_valid_results` completes without error exactly when the
key sets agree, every per-key value agrees and `passed` is true; when
the key sets differ it raises the key-mismatch error naming both key
sets; when the key sets agree but some value differs it raises the
value-mismatch error naming an offending node; and when everything
matches but `passed` is false it raises the distinct inconsistency
error. -/
theorem assert_valid_results_spec (actual : List (String × Int))
    (passed : Bool) (expected : List (String × Int))
    (hne : (expected.map Prod.fst).Nodup) :
    (assert_valid_results actual passed expected = Except.ok () ↔
      dict_keys_eq actual expected ∧ dict_vals_match actual expected ∧
        passed = true) ∧
    (¬ dict_keys_eq actual expected →
      assert_valid_results actual passed expected =
        Except.error (ValidationError.keyMismatch (actual.map Prod.fst)
          (expected.map Prod.fst))) ∧
    (dict_keys_eq actual expected → ¬ dict_vals_match actual expected →
      ∃ node value, assert_valid_results actual passed expected =
        Except.error (ValidationError.valueMismatch node) ∧
        expected.lookup node = some value ∧
        actual.lookup node ≠ some value) ∧
    (dict_keys_eq actual expected → dict_vals_match actual expected →
      passed = false →
      assert_valid_results actual passed expected =
        Except.error ValidationError.passedInconsistency) := by
  unfold assert_valid_results
  by_cases hk : pyKeysEq actual expected = true
  · have hkeq : dict_keys_eq actual expected := (pyKeysEq_iff _ _).mp hk
    rw [if_neg (by simp [hk])]
    cases hf : expected.find? (fun p => !(actual.lookup p.1 == some p.2)) with
    | none =>
      have hvals : dict_vals_match actual expected :=
        (find_mismatch_none_iff _ _).mp hf
      cases passed with
      | true =>
        rw [if_pos rfl]
        refine ⟨?_, ?_, ?_, ?_⟩
        · exact ⟨fun _ => ⟨hkeq, hvals, rfl⟩, fun _ => rfl⟩
        · intro hkn
          exact absurd hkeq hkn
        · intro _ hvn
          exact absurd hvals hvn
        · intro _ _ hfalse
          exact Bool.noConfusion hfalse
      | false =>
        rw [if_neg (by exact Bool.false_ne_true)]
        refine ⟨?_, ?_, ?_, ?_⟩
        · constructor
          · intro h
            exact Except.noConfusion h
          · rintro ⟨-, -, hpass⟩
            exact Bool.noConfusion hpass
        · intro hkn
          exact absurd hkeq hkn
        · intro _ hvn
          exact absurd hvals hvn
        · intro _ _ _
          rfl
    | some p =>
      have hpmem : p ∈ expected := List.mem_of_find?_eq_some hf
      have hpred := List.find?_some hf
      have hmis : actual.lookup p.1 ≠ some p.2 := by
        intro hc
        rw [hc] at hpred
        simp at hpred
      have hnvals : ¬ dict_vals_match actual expected := by
        intro hv
        exact hmis (hv p hpmem)
      refine ⟨?_, ?_, ?_, ?_⟩
      · constructor
        · intro h
          exact Except.noConfusion h
        · rintro ⟨-, hv, -⟩
          exact absurd hv hnvals
      · intro hkn
        exact absurd hkeq hkn
      · intro _ _
        exact ⟨p.1, p.2, rfl, lookup_of_mem_nodup expected p hne hpmem, hmis⟩
      · intro _ hv _
        exact absurd hv hnvals
  · have hkne : ¬ dict_keys_eq actual expected :=
      fun hq => hk ((pyKeysEq_iff _ _).mpr hq)
    have hkf : pyKeysEq actual expected = false :=
      Bool.eq_false_iff.mpr (fun hq => hk hq)
    rw [if_pos (by simp [hkf])]
    refine ⟨?_, ?_, ?_, ?_⟩
    · constructor
      · intro h
        exact Except.noConfusion h
      · rintro ⟨hq, -, -⟩
        exact absurd hq hkne
    · intro _
      rfl
    · intro hq
      exact absurd hq hkne
    · intro hq
      exact absurd hq hkne

theorem assert_valid_results_spec_witness :
    ((([("counter_0", (3 : Int)), ("counter_1", 5)]).map Prod.fst).Nodup) ∧
    (∃ node value,
      assert_valid_results [("counter_0", (3 : Int)), ("counter_1", 4)]
          false [("counter_0", 3), ("counter_1", 5)] =
        Except.error (ValidationError.valueMismatch node) ∧
        ([("counter_0", (3 : Int)), ("counter_1", 5)]).lookup node =
          some value ∧
        ([("counter_0", (3 : Int)), ("counter_1", 4)]).lookup node ≠
          some value) ∧
    (assert_valid_results [("counter_0", (3 : Int)), ("counter_1", 5)]
        true [("counter_0", 3), ("counter_1", 5)] = Except.ok ()) :=
  ⟨by decide,
    (assert_valid_results_spec [("counter_0", 3), ("counter_1", 4)] false
      [("counter_0", 3), ("counter_1", 5)] (by decide)).2.2.1
      (by decide) (by decide),
    by rfl⟩

/-! ### The radiation-fault detector -/

theorem ghdn_no_flags (g : List (String × Option Bool))
    (h : ∀ p ∈ g, p.2 = none) :
    graph_has_dead_neurons g = Except.ok false := by
  unfold graph_has_dead_neurons
  have hany : g.any (fun p => p.2.isSome) = false := by
    rw [List.any_eq_false]
    intro p hp
    rw [h p hp]
    simp
  rw [hany]
  rfl

theorem ghdn_all_flags (g : List (String × Option Bool))
    (hsome : ∃ p ∈ g, p.2.isSome = true)
    (hall : ∀ p ∈ g, p.2.isSome = true) :
    graph_has_dead_neurons g = Except.ok true := by
  unfold graph_has_dead_neurons
  have hany : g.any (fun p => p.2.isSome) = true := List.any_eq_true.mpr hsome
  have hall' : g.all (fun p => p.2.isSome) = true := List.all_eq_true.mpr hall
  rw [hany, hall']
  rfl

theorem ghdn_missing_flags (g : List (String × Option Bool))
    (hsome : ∃ p ∈ g, p.2.isSome = true)
    (hmiss : ∃ q ∈ g, q.2 = none) :
    graph_has_dead_neurons g = Except.error RadError.keyError := by
  unfold graph_has_dead_neurons
  have hany : g.any (fun p => p.2.isSome) = true := List.any_eq_true.mpr hsome
  have hall : g.all (fun p => p.2.isSome) = false := by
    rw [List.all_eq_false]
    obtain ⟨q, hq, hq2⟩ := hmiss
    exact ⟨q, hq, by rw [hq2]; simp⟩
  rw [hany, hall]
  rfl

/-- C6: `counter_neuron_died` returns `False` for every neuron name
when no node of the graph carries the `rad_death` flag; when the fault
model is active (every node carries the flag) it returns the stored
flag of the named neuron; and when some node carries the flag while a
counter neuron lacks it, it raises the `KeyError` consistency error
instead of returning. -/
theorem counter_neuron_died_spec (snn_graph : List (String × Option Bool)) :
    ((∀ p ∈ snn_graph, p.2 = none) →
      ∀ name, counter_neuron_died snn_graph name = Except.ok false) ∧
    ((∀ p ∈ snn_graph, p.2.isSome = true) →
      ∀ name b, snn_graph.lookup name = some (some b) →
        counter_neuron_died snn_graph name = Except.ok b) ∧
    ((∃ p ∈ snn_graph, p.2.isSome = true) →
      (∃ q ∈ snn_graph, (∃ i : Nat, q.1 = "counter_" ++ Nat.repr i) ∧
        q.2 = none) →
      ∀ name, counter_neuron_died snn_graph name =
        Except.error RadError.keyError) := by
  refine ⟨?_, ?_, ?_⟩
  · intro h name
    unfold counter_neuron_died
    rw [ghdn_no_flags snn_graph h]
  · intro hall name b hlook
    have hmem : (name, some b) ∈ snn_graph := by
      rcases List.lookup_eq_some_iff.mp hlook with ⟨l1, l2, hdec, -⟩
      rw [hdec]
      exact List.mem_append_right l1 (List.mem_cons_self _ _)
    unfold counter_neuron_died
    rw [ghdn_all_flags snn_graph ⟨(name, some b), hmem, rfl⟩ hall, hlook]
  · intro hsome hmiss name
    obtain ⟨q, hq, -, hq2⟩ := hmiss
    unfold counter_neuron_died
    rw [ghdn_missing_flags snn_graph hsome ⟨q, hq, hq2⟩]

theorem counter_neuron_died_spec_witness :
    counter_neuron_died [("counter_0", (none : Option Bool))] "counter_0" =
        Except.ok false ∧
    counter_neuron_died [("counter_0", some true), ("counter_1", some false)]
        "counter_0" = Except.ok true ∧
    counter_neuron_died [("counter_0", some true), ("counter_1", none),
        ("counter_2", none)] "counter_0" =
      Except.error RadError.keyError :=
  ⟨(counter_neuron_died_spec _).1 (by decide) _,
    (counter_neuron_died_spec _).2.1 (by decide) _ true (by rfl),
    (counter_neuron_died_spec _).2.2 (by decide)
      ⟨("counter_1", none), by decide, ⟨1, rfl⟩, rfl⟩ _⟩

/-! ### The `passed` flag of `get_snn_results` -/

theorem mem_of_lookup_eq_some {β : Type} {l : List (String × β)}
    {k : String} {v : β} (h : l.lookup k = some v) : (k, v) ∈ l := by
  rcases List.lookup_eq_some_iff.mp h with ⟨l1, l2, hdec, -⟩
  rw [hdec]
  exact List.mem_append_right l1 (List.mem_cons_self _ _)

theorem pyDictEq_true_iff (a b : List (String × Int)) :
    pyDictEq a b = true ↔
      (∀ p ∈ a, b.lookup p.1 = some p.2) ∧
        ∀ p ∈ b, a.lookup p.1 = some p.2 := by
  unfold pyDictEq
  rw [Bool.and_eq_true, List.all_eq_true, List.all_eq_true]
  constructor
  · intro h
    exact ⟨fun p hp => by simpa using h.1 p hp,
      fun p hp => by simpa using h.2 p hp⟩
  · intro h
    exact ⟨fun p hp => by simpa using h.1 p hp,
      fun p hp => by simpa using h.2 p hp⟩

theorem pyDictEq_iff_lookup_eq (a b : List (String × Int))
    (ha : (a.map Prod.fst).Nodup) (hb : (b.map Prod.fst).Nodup) :
    pyDictEq a b = true ↔ ∀ k, a.lookup k = b.lookup k := by
  rw [pyDictEq_true_iff]
  constructor
  · rintro ⟨h1, h2⟩ k
    cases hak : a.lookup k with
    | some v =>
      have hmem : (k, v) ∈ a := mem_of_lookup_eq_some hak
      exact (h1 (k, v) hmem).symm
    | none =>
      cases hbk : b.lookup k with
      | none => rfl
      | some w =>
        have hmem : (k, w) ∈ b := mem_of_lookup_eq_some hbk
        have := h2 (k, w) hmem
        rw [hak] at this
        exact Option.noConfusion this
  · intro h
    constructor
    · intro p hp
      rw [← h p.1]
      exact lookup_of_mem_nodup a p ha hp
    · intro p hp
      rw [h p.1]
      exact lookup_of_mem_nodup b p hb hp

theorem without_redundancy_keys (n : Nat) (u : Nat → Int) :
    (get_nx_LIF_count_without_redundancy n u).map Prod.fst =
      (List.range n).map (fun i => "counter_" ++ Nat.repr i) := by
  unfold get_nx_LIF_count_without_redundancy
  rw [List.map_map]
  rfl

theorem counter_keys_nodup (n : Nat) :
    ((List.range n).map (fun i => "counter_" ++ Nat.repr i)).Nodup := by
  refine (List.nodup_range n).map ?_
  intro a b h
  exact counter_name_inj h

theorem foldlM_counts_keys (n : Nat) (u : Nat → Int)
    (ru : Nat → Nat → Int) (red_level : Int) :
    ∀ (l : List Nat) (acc res : List (String × Int)),
      l.foldlM (fun acc i => do
        let c ← get_majority_node_count n u ru i red_level.toNat true
        pure (acc ++ [("counter_" ++ Nat.repr i, c)])) acc =
          Except.ok res →
      res.map Prod.fst = acc.map Prod.fst ++
        l.map (fun i => "counter_" ++ Nat.repr i) := by
  intro l
  induction l with
  | nil =>
    intro acc res h
    have h' : acc = res := Except.ok.inj h
    rw [← h']
    simp
  | cons i l ih =>
    intro acc res h
    rw [List.foldlM_cons] at h
    cases hg : get_majority_node_count n u ru i red_level.toNat true with
    | error e =>
      rw [hg] at h
      exact Except.noConfusion h
    | ok c =>
      rw [hg] at h
      have h' := ih (acc ++ [("counter_" ++ Nat.repr i, c)]) res h
      rw [h']
      simp

theorem with_redundancy_keys (n : Nat) (u : Nat → Int)
    (ru : Nat → Nat → Int) (red_level : Int)
    (res : List (String × Int))
    (h : get_nx_LIF_count_with_redundancy n u ru red_level =
      Except.ok res) :
    res.map Prod.fst = (List.range n).map
      (fun i => "counter_" ++ Nat.repr i) := by
  unfold get_nx_LIF_count_with_redundancy at h
  by_cases hc : red_level < 1 ∨ red_level % 2 = 1
  · rw [if_pos hc] at h
    exact Except.noConfusion h
  · rw [if_neg hc] at h
    have := foldlM_counts_keys n u ru red_level (List.range n) [] res h
    simpa using this

/-- C8: in the dict returned by `get_snn_results`, the `"passed"` entry
is true exactly when the computed counter-mark mapping (the returned
dict without its `"passed"` entry) agrees, key for key and value for
value, with the reference oracle `alipour_counter_marks`. -/
theorem get_snn_results_passed_iff_matches_oracle
    (alipour_counter_marks : List (String × Int)) (redundant : Bool)
    (n : Nat) (u : Nat → Int) (ru : Nat → Nat → Int) (red_level : Int)
    (marks : List (String × Int)) (passed : Bool)
    (ha : (alipour_counter_marks.map Prod.fst).Nodup)
    (h : get_snn_results alipour_counter_marks redundant n u ru red_level =
      Except.ok (marks, passed)) :
    passed = true ↔
      ∀ k, marks.lookup k = alipour_counter_marks.lookup k := by
  have hsplit : ∃ m0, marks = m0 ∧
      passed = pyDictEq alipour_counter_marks m0 ∧
      (m0.map Prod.fst).Nodup := by
    unfold get_snn_results at h
    cases redundant with
    | false =>
      have h' : (Except.ok ((get_nx_LIF_count_without_redundancy n u),
          pyDictEq alipour_counter_marks
            (get_nx_LIF_count_without_redundancy n u)) :
          Except SnnError (List (String × Int) × Bool)) =
          Except.ok (marks, passed) := h
      have hp := Except.ok.inj h'
      refine ⟨get_nx_LIF_count_without_redundancy n u,
        (congrArg Prod.fst hp).symm, (congrArg Prod.snd hp).symm, ?_⟩
      rw [without_redundancy_keys]
      exact counter_keys_nodup n
    | true =>
      cases hr : get_nx_LIF_count_with_redundancy n u ru red_level with
      | error e =>
        rw [hr] at h
        exact Except.noConfusion h
      | ok m0 =>
        rw [hr] at h
        have h' : (Except.ok (m0, pyDictEq alipour_counter_marks m0) :
            Except SnnError (List (String × Int) × Bool)) =
            Except.ok (marks, passed) := h
        have hp := Except.ok.inj h'
        refine ⟨m0, (congrArg Prod.fst hp).symm,
          (congrArg Prod.snd hp).symm, ?_⟩
        rw [with_redundancy_keys n u ru red_level m0 hr]
        exact counter_keys_nodup n
  obtain ⟨m0, rfl, hpass, hm0⟩ := hsplit
  rw [hpass]
  rw [pyDictEq_iff_lookup_eq alipour_counter_marks _ ha hm0]
  constructor
  · intro hh k
    exact (hh k).symm
  · intro hh k
    exact (hh k).symm

theorem get_snn_results_passed_iff_matches_oracle_witness :
    ((([("counter_0", (3 : Int))]).map Prod.fst).Nodup) ∧
    (get_snn_results [("counter_0", (3 : Int))] false 1 (fun _ => 3)
      (fun _ _ => 0) 2 = Except.ok ([("counter_0", 3)], true)) ∧
    (true = true ↔ ∀ k, ([("counter_0", (3 : Int))]).lookup k =
      ([("counter_0", (3 : Int))]).lookup k) :=
  ⟨by decide, by rfl,
    get_snn_results_passed_iff_matches_oracle [("counter_0", 3)] false 1
      (fun _ => 3) (fun _ _ => 0) 2 [("counter_0", 3)] true (by decide)
      (by rfl)⟩

/-! ### The recurrent degree-receiver topology builder -/

theorem degree_receiver_name_inj {i j m i' j' m' : Nat}
    (h : degree_receiver_name i j m = degree_receiver_name i' j' m') :
    i = i' ∧ j = j' ∧ m = m' := by
  unfold degree_receiver_name at h
  have hd := congrArg String.data h
  simp only [String.data_append, List.append_assoc,
    List.singleton_append] at hd
  have hd' := List.append_cancel_left hd
  obtain ⟨h1, h2⟩ := append_underscore_inj _ _ _ _
    (underscore_not_mem_repr i) (underscore_not_mem_repr i') hd'
  obtain ⟨h3, h4⟩ := append_underscore_inj _ _ _ _
    (underscore_not_mem_repr j) (underscore_not_mem_repr j') h2
  refine ⟨repr_injective (String.ext h1),
    repr_injective (String.ext h3), repr_injective (String.ext h4)⟩

theorem mem_create_recurrent_iff (nodes : List Nat)
    (neighbors : Nat → List Nat) (m_val : Nat) (w : Int) (i j m : Nat) :
    (RecurrentEdge.mk (degree_receiver_name i j m)
        (degree_receiver_name i j m)
        (Synapse.mk w 0 0) ∈
      create_recurrent_degree_receiver_synapse nodes neighbors m_val w) ↔
      (i ∈ nodes ∧ j ∈ neighbors i ∧ i ≠ j ∧ m ≤ m_val) := by
  unfold create_recurrent_degree_receiver_synapse
  simp only [List.mem_flatMap, List.mem_filter, List.mem_map,
    List.mem_range]
  constructor
  · rintro ⟨i', hi', j', ⟨hj', hij'⟩, m', hm', heq⟩
    have hsrc : degree_receiver_name i' j' m' =
        degree_receiver_name i j m := congrArg RecurrentEdge.src heq
    obtain ⟨hii, hjj, hmm⟩ := degree_receiver_name_inj hsrc
    subst hii; subst hjj; subst hmm
    refine ⟨hi', hj', ?_, by omega⟩
    intro hc
    rw [hc] at hij'
    simp at hij'
  · rintro ⟨hi, hj, hij, hm⟩
    exact ⟨i, hi, j, ⟨hj, by simp [hij]⟩, m, by omega, rfl⟩

theorem create_recurrent_edges_shape (nodes : List Nat)
    (neighbors : Nat → List Nat) (m_val : Nat) (w : Int) :
    ∀ e ∈ create_recurrent_degree_receiver_synapse nodes neighbors m_val w,
      ∃ i j m, e = RecurrentEdge.mk (degree_receiver_name i j m)
        (degree_receiver_name i j m) (Synapse.mk w 0 0) := by
  intro e he
  unfold create_recurrent_degree_receiver_synapse at he
  simp only [List.mem_flatMap, List.mem_filter, List.mem_map,
    List.mem_range] at he
  obtain ⟨i, -, j, -, m, -, heq⟩ := he
  exact ⟨i, j, m, heq.symm⟩

theorem create_recurrent_nodup (nodes : List Nat)
    (neighbors : Nat → List Nat) (m_val : Nat) (w : Int)
    (hn : nodes.Nodup) (hne : ∀ i ∈ nodes, (neighbors i).Nodup) :
    (create_recurrent_degree_receiver_synapse nodes neighbors
      m_val w).Nodup := by
  unfold create_recurrent_degree_receiver_synapse
  rw [List.nodup_flatMap]
  constructor
  · intro i hi
    rw [List.nodup_flatMap]
    constructor
    · intro j hj
      refine (List.nodup_range _).map ?_
      intro m1 m2 hm
      have := congrArg RecurrentEdge.src hm
      exact (degree_receiver_name_inj this).2.2
    · have hfil : ((neighbors i).filter (fun j => !(i == j))).Nodup :=
        (hne i hi).filter _
      refine hfil.imp_of_mem ?_
      intro j1 j2 _ _ hj12 e he1 he2
      rw [List.mem_map] at he1 he2
      obtain ⟨m1, -, hm1⟩ := he1
      obtain ⟨m2, -, hm2⟩ := he2
      rw [← hm2] at hm1
      have := congrArg RecurrentEdge.src hm1
      exact hj12 (degree_receiver_name_inj this).2.1
  · refine hn.imp_of_mem ?_
    intro i1 i2 _ _ hi12 e he1 he2
    rw [List.mem_flatMap] at he1 he2
    obtain ⟨j1, -, he1⟩ := he1
    obtain ⟨j2, -, he2⟩ := he2
    rw [List.mem_map] at he1 he2
    obtain ⟨m1, -, hm1⟩ := he1
    obtain ⟨m2, -, hm2⟩ := he2
    rw [← hm2] at hm1
    have := congrArg RecurrentEdge.src hm1
    exact hi12 (degree_receiver_name_inj this).1

/-- C9: the topology builder adds exactly one `degree_receiver`
self-loop per triple (node `i`, neighbour `j` of `i` with `i ≠ j`,
`m ∈ [0, m_val]`) — stated as: the produced edge list has no duplicate
edges, an edge for a triple is present exactly when the triple is in
range, and every produced edge is a self-loop carrying the configured
recurrent weight, delay 0 and no decay. -/
theorem create_recurrent_degree_receiver_synapse_spec (nodes : List Nat)
    (neighbors : Nat → List Nat) (m_val : Nat) (w : Int)
    (hn : nodes.Nodup) (hne : ∀ i ∈ nodes, (neighbors i).Nodup) :
    ((create_recurrent_degree_receiver_synapse nodes neighbors
        m_val w).Nodup) ∧
    (∀ i j m, (RecurrentEdge.mk (degree_receiver_name i j m)
        (degree_receiver_name i j m) (Synapse.mk w 0 0) ∈
      create_recurrent_degree_receiver_synapse nodes neighbors m_val w) ↔
      (i ∈ nodes ∧ j ∈ neighbors i ∧ i ≠ j ∧ m ≤ m_val)) ∧
    (∀ e ∈ create_recurrent_degree_receiver_synapse nodes neighbors m_val w,
      e.src = e.tgt ∧ e.syn = Synapse.mk w 0 0) := by
  refine ⟨create_recurrent_nodup nodes neighbors m_val w hn hne,
    fun i j m => mem_create_recurrent_iff nodes neighbors m_val w i j m,
    ?_⟩
  intro e he
  obtain ⟨i, j, m, rfl⟩ :=
    create_recurrent_edges_shape nodes neighbors m_val w e he
  exact ⟨rfl, rfl⟩

theorem create_recurrent_degree_receiver_synapse_spec_witness :
    (([0, 1, 2] : List Nat).Nodup) ∧
    (∀ i ∈ ([0, 1, 2] : List Nat),
      (([0, 1, 2] : List Nat).filter (fun j => !(j == i))).Nodup) ∧
    ((create_recurrent_degree_receiver_synapse [0, 1, 2]
        (fun i => ([0, 1, 2] : List Nat).filter (fun j => !(j == i)))
        2 5).Nodup) ∧
    (create_recurrent_degree_receiver_synapse [0, 1, 2]
        (fun i => ([0, 1, 2] : List Nat).filter (fun j => !(j == i)))
        2 5).length = 18 :=
  ⟨by decide, by decide,
    (create_recurrent_degree_receiver_synapse_spec [0, 1, 2]
      (fun i => ([0, 1, 2] : List Nat).filter (fun j => !(j == i))) 2 5
      (by decide) (by decide)).1,
    by rfl⟩
